import Mathlib

/-!
Shallow embedding of the COL blog-format parser (`col-parser.js`, class
`ColParser`) and verification of its specification claims.

Strings are modelled as `List Char` (`Str`).  JavaScript regular-expression
passes are modelled as explicit left-to-right scans with the same
greedy/lazy backtracking behaviour as the concrete patterns in the source.
The clock read `new Date().toISOString().split('T')[0]` is modelled as an
explicit `today` parameter of `parse`.
-/

namespace Col

/-- Strings, modelled as lists of characters. -/
abbrev Str := List Char

/-- Converts a Lean string literal to the `Str` model. -/
def S (s : String) : Str := s.data

/-- The backtick character (written via `S` to keep source plain). -/
def btick : Char := (S "`").getD 0 ' '

/-- JavaScript `\s` (whitespace) character class, also used by `trim`. -/
def isWs (c : Char) : Bool :=
  c = ' ' || c = '\t' || c = '\n' || c = '\r' || c = '\x0b' || c = '\x0c' ||
  c = '\u00A0' || c = '\u1680' ||
  (0x2000 ≤ c.toNat && c.toNat ≤ 0x200a) ||
  c = '\u2028' || c = '\u2029' || c = '\u202F' || c = '\u205F' ||
  c = '\u3000' || c = '\uFEFF'

/-- JavaScript line terminators (what `.` does not match, and what `^`/`$`
match around in multiline mode). -/
def isLineTerm (c : Char) : Bool :=
  c = '\n' || c = '\r' || c = '\u2028' || c = '\u2029'

/-- Characters matched by `.` in a JavaScript regex (no `s` flag). -/
def dotCh (c : Char) : Bool := !isLineTerm c

/-- JavaScript `\w` (word) character class. -/
def isWordCh (c : Char) : Bool :=
  ('a' ≤ c && c ≤ 'z') || ('A' ≤ c && c ≤ 'Z') || ('0' ≤ c && c ≤ '9') || c = '_'

/-- JavaScript `\d` (digit) character class. -/
def isDigitCh (c : Char) : Bool := '0' ≤ c && c ≤ '9'

/-- A single or double quote character (the class `["']`). -/
def isQuote (c : Char) : Bool := c = '"' || c = '\''

/-- Drops trailing characters satisfying `p`. -/
def dropTrailWhile (p : Char → Bool) (s : Str) : Str :=
  (s.reverse.dropWhile p).reverse

/-- JavaScript `String.prototype.trim`. -/
def trimStr (s : Str) : Str := dropTrailWhile isWs (s.dropWhile isWs)

/-- JavaScript `String.prototype.split('\n')` (split on a literal character). -/
def splitOnCh (ch : Char) : Str → List Str
  | [] => [[]]
  | c :: cs =>
    if c = ch then [] :: splitOnCh ch cs
    else
      match splitOnCh ch cs with
      | p :: ps => (c :: p) :: ps
      | [] => [[c]]

/-- `Array.prototype.join('\n')`. -/
def joinNl (ls : List Str) : Str := List.intercalate [ '\n' ] ls

/-! ### Front-matter matcher

The metadata pattern is `/^---\s*\n([\s\S]*?)\n---\s*\n/`.  Backtracking
semantics: the `\s*` parts are greedy (longest whitespace consumption whose
next character is the required `\n` is preferred), the group is lazy
(shortest body is preferred). -/

/-- Positions (tried by a greedy `\s*` followed by `\n`) of `'\n'` characters
inside the leading whitespace run of `t`, in increasing order. -/
def wsNlPositions (t : Str) : List Nat :=
  (List.range (t.takeWhile isWs).length).filter (fun k => t.getD k ' ' = '\n')

/-- Matches the trailing `\s*\n` of the closing delimiter (greedy `\s*`):
returns the remainder after the last `'\n'` of the leading whitespace run. -/
def metaClose (v : Str) : Option Str :=
  match (wsNlPositions v).getLast? with
  | some j => some (v.drop (j + 1))
  | none => none

/-- Lazy scan for the closing `\n---\s*\n`: returns the (shortest) group-1
body together with the text after the whole closing delimiter. -/
def metaBodyScan : Str → Option (Str × Str)
  | [] => none
  | c :: cs =>
    if (S "\n---").isPrefixOf (c :: cs) then
      match metaClose ((c :: cs).drop 4) with
      | some rest => some ([], rest)
      | none => (metaBodyScan cs).map (fun pr => (c :: pr.1, pr.2))
    else
      (metaBodyScan cs).map (fun pr => (c :: pr.1, pr.2))

/-- The anchored front-matter match: group 1 (the metadata block body) and
the text remaining after the full match. -/
def matchMeta (s : Str) : Option (Str × Str) :=
  match s with
  | '-' :: '-' :: '-' :: t =>
    ((wsNlPositions t).reverse.findSome? (fun k => metaBodyScan (t.drop (k + 1))))
  | _ => none

/-- `value.replace(/^["']|["']$/g, '')`: removes one leading quote character
and one trailing quote character, independently. -/
def stripQuotes (v : Str) : Str :=
  let v1 : Str :=
    match v with
    | c :: cs => if isQuote c then cs else c :: cs
    | [] => []
  match v1.reverse with
  | c :: cs => if isQuote c then cs.reverse else v1
  | [] => v1

/-- JavaScript object insertion `obj[k] = v`: updates in place if the key
exists, otherwise appends. -/
def objInsert (m : List (Str × Str)) (k v : Str) : List (Str × Str) :=
  if m.any (fun kv => kv.1 = k) then
    m.map (fun kv => if kv.1 = k then (k, v) else kv)
  else m ++ [(k, v)]

/-- Parses one `key: value` front-matter line into the accumulated object. -/
def metaLineInsert (m : List (Str × Str)) (line : Str) : List (Str × Str) :=
  let trimmed := trimStr line
  if trimmed = [] then m
  else
    let colonIdx := (trimmed.takeWhile (fun c => !(c = ':'))).length
    if colonIdx = trimmed.length then m
    else
      let key := trimStr (trimmed.take colonIdx)
      let value := trimStr (trimmed.drop (colonIdx + 1))
      if key ≠ [] ∧ value ≠ [] then objInsert m key (stripQuotes value) else m

/-- Parses the front-matter block body line by line. -/
def parseMetaLines (inner : Str) : List (Str × Str) :=
  (splitOnCh '\n' inner).foldl metaLineInsert []

/-- `parseMetadata`: detects the front-matter block and returns the
key/value mapping together with the remaining (trimmed) content. -/
def parseMetadata (content : Str) : List (Str × Str) × Str :=
  match matchMeta content with
  | none => ([], trimStr content)
  | some (inner, rest) => (parseMetaLines inner, trimStr rest)

/-! ### Generic replace scans

A JavaScript global `replace` is a left-to-right scan: at each position the
pattern is tried; on a match the replacement is emitted and scanning resumes
after the match, otherwise the character is copied and scanning advances by
one.  A matcher returns `(consumed, replacement)`; all matchers used here
consume at least one character. -/

/-- Global regex replace (no anchors), as a fuel-indexed structural
recursion: `fuel` bounds the number of scan steps and is instantiated with
the string length; every step consumes at least one character, so the fuel
never runs out. -/
def replaceScanF (f : Str → Option (Nat × Str)) : Nat → Str → Str
  | _, [] => []
  | 0, _ :: _ => []
  | fuel + 1, c :: cs =>
    match f (c :: cs) with
    | some (n, repl) => repl ++ replaceScanF f fuel (cs.drop (n - 1))
    | none => c :: replaceScanF f fuel cs

/-- Global regex replace (no anchors). -/
def replaceScan (f : Str → Option (Nat × Str)) (s : Str) : Str :=
  replaceScanF f s.length s

/-- Global multiline replace for `^`-anchored patterns (fuel-indexed as
`replaceScanF`): the matcher is only tried at line starts (`ls` tracks
whether the position follows a line terminator or is the start of
input). -/
def replaceScanLSF (f : Str → Option (Nat × Str)) : Nat → Bool → Str → Str
  | _, _, [] => []
  | 0, _, _ :: _ => []
  | fuel + 1, ls, c :: cs =>
    if ls then
      match f (c :: cs) with
      | some (n, repl) =>
        repl ++ replaceScanLSF f fuel
          (match ((c :: cs).take n).getLast? with
           | some d => isLineTerm d
           | none => true) (cs.drop (n - 1))
      | none => c :: replaceScanLSF f fuel (isLineTerm c) cs
    else c :: replaceScanLSF f fuel (isLineTerm c) cs

/-- Global multiline replace for `^`-anchored patterns. -/
def replaceScanLS (f : Str → Option (Nat × Str)) (ls : Bool) (s : Str) : Str :=
  replaceScanLSF f s.length ls s

/-- Lazy group scan: the shortest prefix of characters satisfying `allowed`
that is followed by the literal `close`; returns the group text and the
remainder after `close`.  (All closers used here are nonempty.) -/
def lazyUntil (close : Str) (allowed : Char → Bool) : Str → Option (Str × Str)
  | [] => none
  | c :: cs =>
    if close.isPrefixOf (c :: cs) then some ([], (c :: cs).drop close.length)
    else if allowed c then (lazyUntil close allowed cs).map (fun pr => (c :: pr.1, pr.2))
    else none

/-- The remainder a successful `lazyUntil` returns is no longer than its
input (used for termination of scans built on it). -/
theorem lazyUntil_rest_le (close : Str) (allowed : Char → Bool) :
    ∀ s i r, lazyUntil close allowed s = some (i, r) → r.length ≤ s.length := by
  intro s
  induction s with
  | nil => intro i r h; simp [lazyUntil] at h
  | cons c cs ih =>
    intro i r h
    simp only [lazyUntil] at h
    split at h
    · simp only [Option.some.injEq, Prod.mk.injEq] at h
      obtain ⟨h1, h2⟩ := h
      subst h2
      simp [List.length_drop]
    · split at h
      · cases hrec : lazyUntil close allowed cs with
        | none => rw [hrec] at h; simp at h
        | some pr =>
          rw [hrec] at h
          simp only [Option.map, Option.some.injEq, Prod.mk.injEq] at h
          obtain ⟨h1, h2⟩ := h
          subst h2
          have := ih pr.1 pr.2 (by rw [hrec])
          simp; omega
      · simp at h

/-- First (case-insensitive) occurrence of a lowercase pattern. -/
def findCiIndex (pat : Str) : Str → Option Nat
  | [] => none
  | c :: cs =>
    if ((c :: cs).take pat.length).map Char.toLower = pat then some 0
    else (findCiIndex pat cs).map (· + 1)

/-- Case-insensitive prefix test against a lowercase pattern. -/
def ciIsPrefix (pat : Str) (s : Str) : Bool :=
  (s.take pat.length).map Char.toLower = pat

/-! ### Escaping and sanitizing -/

/-- The `htmlEntities` table lookup (with the identity fallback). -/
def htmlEntity (c : Char) : Str :=
  if c = '&' then S "&amp;"
  else if c = '<' then S "&lt;"
  else if c = '>' then S "&gt;"
  else if c = '"' then S "&quot;"
  else if c = '\x27' then S "&#39;"
  else [c]

/-- `escapeHtml` on an actual string: `text.replace(/[&<>"']/g, ...)`. -/
def escapeHtml (text : Str) : Str := text.flatMap htmlEntity

/-- A JavaScript argument that is either a real string or anything else
(`undefined`, `null`, a number, an object, ...). -/
inductive JsArg where
  | nonString : JsArg
  | str : Str → JsArg
deriving DecidableEq

/-- `escapeHtml` including its guard
`if (!text || typeof text !== 'string') return ''`. -/
def escapeHtmlJs : JsArg → Str
  | .nonString => []
  | .str s => if s = [] then [] else escapeHtml s

/-- Matcher for `/<script\b[^<]*(?:(?!<\/script>)<[^<]*)*<\/script>/gi`:
from `<script` plus a word boundary up to the first `</script>`. -/
def scriptMatcher (s : Str) : Option (Nat × Str) :=
  if ciIsPrefix (S "<script") s then
    let r := s.drop 7
    let boundaryOk := match r with
      | [] => true
      | c :: _ => !isWordCh c
    if boundaryOk then
      match findCiIndex (S "</script>") r with
      | some i => some (7 + i + 9, [])
      | none => none
    else none
  else none

/-- Matcher for `/\son\w+\s*=\s*["'][^"']*["']/gi`. -/
def onAttrMatcher (s : Str) : Option (Nat × Str) :=
  match s with
  | c :: rest =>
    if isWs c ∧ ciIsPrefix (S "on") rest then
      let r2 := rest.drop 2
      let word := r2.takeWhile isWordCh
      if word = [] then none
      else
        let r3 := r2.drop word.length
        let ws1 := r3.takeWhile isWs
        match r3.drop ws1.length with
        | '=' :: r5 =>
          let ws2 := r5.takeWhile isWs
          match r5.drop ws2.length with
          | q1 :: r7 =>
            if isQuote q1 then
              let inner := r7.takeWhile (fun x => !isQuote x)
              match r7.drop inner.length with
              | q2 :: _ =>
                if isQuote q2 then
                  some (1 + 2 + word.length + ws1.length + 1 + ws2.length +
                    1 + inner.length + 1, [])
                else none
              | [] => none
            else none
          | [] => none
        | _ => none
    else none
  | [] => none

/-- Matcher for `/javascript:/gi`. -/
def jsUriMatcher (s : Str) : Option (Nat × Str) :=
  if ciIsPrefix (S "javascript:") s then some (11, []) else none

/-- `sanitizeHtml`: script elements, inline event-handler attributes and
`javascript:` occurrences are removed, in that order. -/
def sanitizeHtml (html : Str) : Str :=
  if html = [] then []
  else replaceScan jsUriMatcher (replaceScan onAttrMatcher (replaceScan scriptMatcher html))

/-! ### Preview extraction -/

/-- One scan for `/<preview>([\s\S]*?)<\/preview>/g`: collects every match's
group 1 (in order) and simultaneously removes every match from the text. -/
def previewScanF : Nat → Str → List Str × Str
  | _, [] => ([], [])
  | 0, _ :: _ => ([], [])
  | fuel + 1, c :: cs =>
    if (S "<preview>").isPrefixOf (c :: cs) then
      match lazyUntil (S "</preview>") (fun _ => true) ((c :: cs).drop 9) with
      | some (inner, rest) =>
        let pr := previewScanF fuel rest
        (inner :: pr.1, pr.2)
      | none =>
        let pr := previewScanF fuel cs
        (pr.1, c :: pr.2)
    else
      let pr := previewScanF fuel cs
      (pr.1, c :: pr.2)

/-- The `<preview>` scan (fuel instantiated with the string length; a
successful `lazyUntil` leaves a strictly shorter remainder, see
`lazyUntil_rest_le`, so the fuel never runs out). -/
def previewScan (s : Str) : List Str × Str := previewScanF s.length s

/-- `extractPreview`: first `<preview>` block (trimmed) and the content with
all preview spans removed. -/
def extractPreview (content : Str) : Str × Str :=
  let pr := previewScan content
  (trimStr ((pr.1.head?.getD [])), pr.2)

/-! ### Code transformer -/

/-- Matcher for fenced code blocks ```` /```(\w*)\n([\s\S]*?)```/g ````. -/
def codeBlockMatcher (s : Str) : Option (Nat × Str) :=
  if (S "```").isPrefixOf s then
    let r := s.drop 3
    let lang := r.takeWhile isWordCh
    match r.drop lang.length with
    | '\n' :: r2 =>
      match lazyUntil (S "```") (fun _ => true) r2 with
      | some (code, _) =>
        let langClass := if lang = [] then [] else S " language-" ++ lang
        some (3 + lang.length + 1 + code.length + 3,
          S "<pre class=\"blog-code-block\"><code class=\"blog-code" ++ langClass ++
          S "\">" ++ escapeHtml (trimStr code) ++ S "</code></pre>")
      | none => none
    | _ => none
  else none

/-- Matcher for inline code `` /`([^`]+)`/g ``. -/
def inlineCodeMatcher (s : Str) : Option (Nat × Str) :=
  match s with
  | c :: rest =>
    if c = btick then
      let code := rest.takeWhile (fun x => !(x = btick))
      if code = [] then none
      else
        match rest.drop code.length with
        | d :: _ =>
          if d = btick then
            some (1 + code.length + 1,
              S "<code class=\"blog-inline-code\">" ++ escapeHtml code ++ S "</code>")
          else none
        | [] => none
    else none
  | [] => none

/-- `parseCode`: fenced blocks first, then inline code. -/
def parseCode (content : Str) : Str :=
  replaceScan inlineCodeMatcher (replaceScan codeBlockMatcher content)

/-! ### Heading transformer -/

/-- The heading id: `text.toLowerCase()` with runs of non-`[a-z0-9]`
collapsed to `-`.  (`toLowerCase` is modelled via `Char.toLower`.) -/
def collapseNonAlnumF : Nat → Str → Str
  | _, [] => []
  | 0, _ :: _ => []
  | fuel + 1, c :: cs =>
    if ('a' ≤ c && c ≤ 'z') || ('0' ≤ c && c ≤ '9') then
      c :: collapseNonAlnumF fuel cs
    else
      '-' :: collapseNonAlnumF fuel (cs.dropWhile
        (fun x => !(('a' ≤ x && x ≤ 'z') || ('0' ≤ x && x ≤ '9'))))

/-- Run collapsing (fuel instantiated with the string length; every step
consumes at least one character). -/
def collapseNonAlnum (s : Str) : Str := collapseNonAlnumF s.length s

/-- `/^-|-$/g` on the collapsed id: one leading and one trailing hyphen
are removed. -/
def stripEdgeHyphens (v : Str) : Str :=
  let v1 : Str :=
    match v with
    | c :: cs => if c = '-' then cs else c :: cs
    | [] => []
  match v1.reverse with
  | c :: cs => if c = '-' then cs.reverse else v1
  | [] => v1

/-- The generated heading id. -/
def headingId (text : Str) : Str :=
  stripEdgeHyphens (collapseNonAlnum (text.map Char.toLower))

/-- Digit character for a heading level (1-6). -/
def levelChar (n : Nat) : Char := Char.ofNat (48 + n)

/-- Greedy `\s+` followed by `(.+)$` in multiline mode: consumed whitespace
length and the group text (the rest of the line the content starts on). -/
def wsPlusContentM (s : Str) : Option (Nat × Str) :=
  let w := (s.takeWhile isWs).length
  if w = 0 then none
  else
    match s.drop w with
    | c :: r => some (w, c :: r.takeWhile dotCh)
    | [] =>
      match ((List.range w).filter
          (fun j => decide (1 ≤ j) && dotCh (s.getD j ' '))).getLast? with
      | some j => some (j, (s.drop j).takeWhile dotCh)
      | none => none

/-- Matcher for `/^(#{1,6})\s+(.+)$/gm` (tried only at line starts). -/
def headingMatcher (s : Str) : Option (Nat × Str) :=
  let hashes := s.takeWhile (fun c => c = '#')
  let n := hashes.length
  if n = 0 ∨ 6 < n then none
  else
    match wsPlusContentM (s.drop n) with
    | some (w, text) =>
      some (n + w + text.length,
        S "<h" ++ [levelChar n] ++ S " id=\"" ++ headingId text ++
        S "\" class=\"blog-heading\">" ++ trimStr text ++
        S "</h" ++ [levelChar n] ++ S ">")
    | none => none

/-- `parseHeadings`. -/
def parseHeadings (content : Str) : Str :=
  replaceScanLS headingMatcher true content

/-! ### Link and image transformer -/

/-- The `<img>` replacement for `![alt](url)`. -/
def imgRepl (alt url : Str) : Str :=
  S "<img src=\"" ++ escapeHtml url ++ S "\" alt=\"" ++ escapeHtml alt ++
  S "\" class=\"blog-image\" loading=\"lazy\">"

/-- Matcher for `/!\[([^\]]*)\]\(([^)]+)\)/g`. -/
def imageMatcher (s : Str) : Option (Nat × Str) :=
  match s with
  | '!' :: '[' :: rest =>
    let alt := rest.takeWhile (fun c => !(c = ']'))
    match rest.drop alt.length with
    | ']' :: '(' :: r3 =>
      let url := r3.takeWhile (fun c => !(c = ')'))
      if url = [] then none
      else
        match r3.drop url.length with
        | ')' :: _ => some (5 + alt.length + url.length, imgRepl alt url)
        | _ => none
    | _ => none
  | _ => none

/-- The `<a>` replacement for `[text](url)`. -/
def linkRepl (text url : Str) : Str :=
  S "<a href=\"" ++ escapeHtml url ++ S "\" class=\"blog-link\"" ++
  (if (S "http").isPrefixOf url then
    S " target=\"_blank\" rel=\"noopener noreferrer\"" else []) ++
  S ">" ++ escapeHtml text ++ S "</a>"

/-- Matcher for `/\[([^\]]+)\]\(([^)]+)\)/g`. -/
def linkMatcher (s : Str) : Option (Nat × Str) :=
  match s with
  | c :: rest =>
    if c = '[' then
      let text := rest.takeWhile (fun x => !(x = ']'))
      if text = [] then none
      else
        match rest.drop text.length with
        | ']' :: '(' :: r3 =>
          let url := r3.takeWhile (fun x => !(x = ')'))
          if url = [] then none
          else
            match r3.drop url.length with
            | ')' :: _ => some (4 + text.length + url.length, linkRepl text url)
            | _ => none
        | _ => none
    else none
  | [] => none

/-- `parseLinksAndImages`: images are replaced before links. -/
def parseLinksAndImages (content : Str) : Str :=
  replaceScan linkMatcher (replaceScan imageMatcher content)

/-! ### Emphasis transformer -/

/-- Matcher for `/\*\*(.*?)\*\*/g`. -/
def boldMatcher (s : Str) : Option (Nat × Str) :=
  match s with
  | '*' :: '*' :: rest =>
    match lazyUntil (S "**") dotCh rest with
    | some (inner, _) =>
      some (4 + inner.length, S "<strong class=\"blog-bold\">" ++ inner ++ S "</strong>")
    | none => none
  | _ => none

/-- Matcher for `/\*(.*?)\*/g` (the source callback returns the same
`<em>` wrapper on both branches of its nesting check). -/
def italicMatcher (s : Str) : Option (Nat × Str) :=
  match s with
  | '*' :: rest =>
    match lazyUntil (S "*") dotCh rest with
    | some (inner, _) =>
      some (2 + inner.length, S "<em class=\"blog-italic\">" ++ inner ++ S "</em>")
    | none => none
  | _ => none

/-- `parseFormatting`: bold first, then italic. -/
def parseFormatting (content : Str) : Str :=
  replaceScan italicMatcher (replaceScan boldMatcher content)

/-! ### List transformer -/

/-- Greedy `\s+` then `(.+)$` with `$` at the true end of the string (no `m`
flag; used on single lines inside `parseLists`): the group must run to the
end of the line. -/
def wsPlusContentLine (s : Str) : Option Str :=
  let w := (s.takeWhile isWs).length
  if w = 0 then none
  else
    match s.drop w with
    | c :: r => if (c :: r).all dotCh then some (c :: r) else none
    | [] =>
      if 2 ≤ w ∧ dotCh (s.getD (w - 1) ' ') then some (s.drop (w - 1)) else none

/-- `line.match(/^[\s]*[-*+]\s+(.+)$/)`: the captured item text. -/
def matchULine (line : Str) : Option Str :=
  let w := (line.takeWhile isWs).length
  match line.drop w with
  | m :: rest =>
    if m = '-' ∨ m = '*' ∨ m = '+' then wsPlusContentLine rest else none
  | [] => none

/-- `line.match(/^[\s]*\d+\.\s+(.+)$/)`: the captured item text. -/
def matchOLine (line : Str) : Option Str :=
  let w := (line.takeWhile isWs).length
  let r := line.drop w
  let digits := r.takeWhile isDigitCh
  if digits = [] then none
  else
    match r.drop digits.length with
    | '.' :: rest => wsPlusContentLine rest
    | _ => none

/-- The emitted wrapper and item lines. -/
def ulOpenStr : Str := S "<ul class=\"blog-list\">"

/-- The emitted `</ul>` line. -/
def ulCloseStr : Str := S "</ul>"

/-- The emitted `<ol>` line. -/
def olOpenStr : Str := S "<ol class=\"blog-list blog-ordered-list\">"

/-- The emitted `</ol>` line. -/
def olCloseStr : Str := S "</ol>"

/-- The emitted `<li>` line. -/
def liStr (text : Str) : Str :=
  S "<li class=\"blog-list-item\">" ++ text ++ S "</li>"

/-- The line-by-line scan of `parseLists`, carrying the two open-list
flags. -/
def listScan : Bool → Bool → List Str → List Str
  | inUL, inOL, [] =>
    (if inUL then [ulCloseStr] else []) ++ (if inOL then [olCloseStr] else [])
  | inUL, inOL, l :: ls =>
    match matchULine l with
    | some text =>
      if inUL then liStr text :: listScan inUL inOL ls
      else
        (if inOL then [olCloseStr] else []) ++
          ulOpenStr :: liStr text :: listScan true false ls
    | none =>
      match matchOLine l with
      | some text =>
        if inOL then liStr text :: listScan inUL inOL ls
        else
          (if inUL then [ulCloseStr] else []) ++
            olOpenStr :: liStr text :: listScan false true ls
      | none =>
        (if inUL then [ulCloseStr] else []) ++
          (if inOL then [olCloseStr] else []) ++
          l :: listScan false false ls

/-- The emitted line sequence of `parseLists`. -/
def parseListsLines (lines : List Str) : List Str :=
  listScan false false lines

/-- `parseLists`: split on newlines, scan, rejoin. -/
def parseLists (content : Str) : Str :=
  joinNl (parseListsLines (splitOnCh '\n' content))

/-! ### Block elements -/

/-- Matcher for `/^>\s+(.+)$/gm` (tried only at line starts). -/
def blockquoteMatcher (s : Str) : Option (Nat × Str) :=
  match s with
  | '>' :: rest =>
    match wsPlusContentM rest with
    | some (w, text) =>
      some (1 + w + text.length,
        S "<blockquote class=\"blog-blockquote\">" ++ text ++ S "</blockquote>")
    | none => none
  | _ => none

/-- Matcher for `/^---$/gm` (tried only at line starts). -/
def hrMatcher (s : Str) : Option (Nat × Str) :=
  match s with
  | '-' :: '-' :: '-' :: rest =>
    match rest with
    | [] => some (3, S "<hr class=\"blog-hr\">")
    | c :: _ => if isLineTerm c then some (3, S "<hr class=\"blog-hr\">") else none
  | _ => none

/-- `parseBlockElements`: blockquotes, then horizontal rules. -/
def parseBlockElements (content : Str) : Str :=
  replaceScanLS hrMatcher true (replaceScanLS blockquoteMatcher true content)

/-! ### Paragraph transformer -/

/-- Splitting on `/\n\s*\n/` (the accumulator holds the reversed current
piece).  A match at the head of `'\n' :: cs` consumes the `'\n'`, a greedy
`\s*` of length `j` and a final `'\n'`, where `j` is the largest `'\n'`
position inside the leading whitespace run of `cs`. -/
def splitBlankGoF : Nat → Str → Str → List Str
  | _, acc, [] => [acc.reverse]
  | 0, acc, _ :: _ => [acc.reverse]
  | fuel + 1, acc, c :: cs =>
    match (if c = '\n' then (wsNlPositions cs).getLast? else none) with
    | some j => acc.reverse :: splitBlankGoF fuel [] (cs.drop (j + 1))
    | none => splitBlankGoF fuel (c :: acc) cs

/-- `content.split(/\n\s*\n/)` (fuel instantiated with the string
length; every step consumes at least one character). -/
def splitBlank (s : Str) : List Str := splitBlankGoF s.length [] s

/-- `trimmed.match(/^<[^>]+>/)` as a test. -/
def startsHtmlTag (t : Str) : Bool :=
  match t with
  | '<' :: rest =>
    let run := rest.takeWhile (fun c => !(c = '>'))
    decide (run ≠ []) && decide (run.length < rest.length)
  | _ => false

/-- `trimmed.match(/^#{1,6}\s/)` as a test. -/
def startsHashWs (t : Str) : Bool :=
  let n := (t.takeWhile (fun c => c = '#')).length
  decide (1 ≤ n) && decide (n ≤ 6) &&
    (match t.drop n with
     | c :: _ => isWs c
     | [] => false)

/-- `trimmed.match(/^[-*+]\s/)` as a test. -/
def startsBulletWs (t : Str) : Bool :=
  match t with
  | m :: c :: _ => (decide (m = '-') || decide (m = '*') || decide (m = '+')) && isWs c
  | _ => false

/-- `trimmed.match(/^\d+\.\s/)` as a test. -/
def startsNumWs (t : Str) : Bool :=
  let digits := t.takeWhile isDigitCh
  decide (digits ≠ []) &&
    (match t.drop digits.length with
     | '.' :: c :: _ => isWs c
     | _ => false)

/-- `trimmed.match(/^>\s/)` as a test. -/
def startsGtWs (t : Str) : Bool :=
  match t with
  | '>' :: c :: _ => isWs c
  | _ => false

/-- The pass-through test of `parseParagraphs`. -/
def sectionIsBlock (t : Str) : Bool :=
  startsHtmlTag t || startsHashWs t || startsBulletWs t || startsNumWs t ||
    startsGtWs t || (S "```").isPrefixOf t

/-- `parseParagraphs`: wrap non-block sections in `<p>` and rejoin with
blank lines. -/
def parseParagraphs (content : Str) : Str :=
  let sections := splitBlank content
  let pieces := sections.filterMap (fun sec =>
    let t := trimStr sec
    if t = [] then none
    else if sectionIsBlock t then some t
    else some (S "<p class=\"blog-paragraph\">" ++ t ++ S "</p>"))
  List.intercalate (S "\n\n") pieces

/-! ### Metrics -/

/-- Matcher for the tag stripper `/<[^>]*>/g`. -/
def tagMatcher (s : Str) : Option (Nat × Str) :=
  match s with
  | '<' :: rest =>
    let run := rest.takeWhile (fun c => !(c = '>'))
    if run.length < rest.length then some (run.length + 2, []) else none
  | _ => none

/-- `content.replace(/<[^>]*>/g, '')`. -/
def stripTags (content : Str) : Str := replaceScan tagMatcher content

/-- `textOnly.split(/\s+/)` (the accumulator holds the reversed current
piece). -/
def jsSplitWsGoF : Nat → Str → Str → List Str
  | _, acc, [] => [acc.reverse]
  | 0, acc, _ :: _ => [acc.reverse]
  | fuel + 1, acc, c :: cs =>
    if isWs c then acc.reverse :: jsSplitWsGoF fuel [] (cs.dropWhile isWs)
    else jsSplitWsGoF fuel (c :: acc) cs

/-- `String.prototype.split(/\s+/)` (fuel instantiated with the string
length; every step consumes at least one character). -/
def jsSplitWs (s : Str) : List Str := jsSplitWsGoF s.length [] s

/-- `countWords`. -/
def countWords (content : Str) : Nat :=
  let textOnly := trimStr (stripTags content)
  if textOnly = [] then 0 else (jsSplitWs textOnly).length

/-- `estimateReadTime`: `Math.max(1, Math.ceil(wordCount / 200))`. -/
def estimateReadTime (content : Str) : Nat :=
  max 1 ((countWords content + 200 - 1) / 200)

/-! ### The orchestrator -/

/-- A metadata value in the result record: JavaScript strings or arrays of
strings. -/
inductive MetaValue where
  | str : Str → MetaValue
  | list : List Str → MetaValue
deriving DecidableEq

/-- The `metadata` field of the parse result.  The object literal writes
`title`, `date`, `author` and `tags` first and then spreads `...metadata`,
so any key present in the parsed front matter (including `tags`) overrides
the computed default. -/
structure RMeta where
  title : Str
  date : Str
  author : Str
  tags : MetaValue
  extra : List (Str × Str)
deriving DecidableEq

/-- The special keys of the result metadata object. -/
def specialKeys : List Str := [S "title", S "date", S "author", S "tags"]

/-- Builds the result metadata from the parsed mapping and the current
date. -/
def mkRMeta (md : List (Str × Str)) (today : Str) : RMeta where
  title := (md.lookup (S "title")).getD (S "Untitled")
  date := (md.lookup (S "date")).getD today
  author := (md.lookup (S "author")).getD (S "Anonymous")
  tags :=
    match md.lookup (S "tags") with
    | some v => .str v
    | none => .list []
  extra := md.filter (fun kv => !(specialKeys.contains kv.1))

/-- The result record of `parse`. -/
structure ParseResult where
  metadata : RMeta
  preview : Str
  content : Str
  wordCount : Nat
  estimatedReadTime : Nat
deriving DecidableEq

/-- The successful path of `parse` (all inner stages are total). `today` is
the value of `new Date().toISOString().split('T')[0]` at call time. -/
def parse (rawContent : Str) (today : Str) : ParseResult :=
  let m := parseMetadata rawContent
  let pv := extractPreview m.2
  let c3 := sanitizeHtml pv.2
  let c4 := parseCode c3
  let c5 := parseHeadings c4
  let c6 := parseLinksAndImages c5
  let c7 := parseFormatting c6
  let c8 := parseLists c7
  let c9 := parseBlockElements c8
  let processedContent := parseParagraphs c9
  let processedPreview :=
    if pv.1 = [] then []
    else trimStr (parseLinksAndImages (parseFormatting (sanitizeHtml pv.1)))
  { metadata := mkRMeta m.1 today
    preview := processedPreview
    content := trimStr processedContent
    wordCount := countWords processedContent
    estimatedReadTime := estimateReadTime processedContent }

/-- The two error kinds of the orchestrator. -/
inductive ParseError where
  | invalidInput : ParseError
  | parseFailure : Str → ParseError
deriving DecidableEq

/-- The input guard `!rawContent || typeof rawContent !== 'string'`. -/
def invalidArg : JsArg → Bool
  | .nonString => true
  | .str s => decide (s = [])

/-- `parse` with its input guard and try/catch wrapper.  No inner stage of
the model can throw (all are total functions), so the catch branch
(re-raising as a `parseFailure`) is never taken. -/
def parseJs (arg : JsArg) (today : Str) : Except ParseError ParseResult :=
  match arg with
  | .str s => if s = [] then .error .invalidInput else .ok (parse s today)
  | .nonString => .error .invalidInput

/-! ## Verification -/

/-- The five characters that `escapeHtml` rewrites. -/
def escapeSet : List Char := ['&', '<', '>', '"', '\x27']

/-- Characters that can appear in the replacement entities. -/
def entityChars : List Char := ['&', 'a', 'm', 'p', ';', 'l', 't', 'g', 'q', 'u', 'o', '#', '3', '9']

/-- Characters of an `htmlEntity` image: either the unescaped original
character (never one of the five escaped ones) or an entity character. -/
theorem mem_htmlEntity {b c : Char} (hb : b ∈ htmlEntity c) :
    (b = c ∧ c ∉ escapeSet) ∨ b ∈ entityChars := by
  have hsub : ∀ ent : String, (∀ x ∈ ent.data, x ∈ entityChars) →
      b ∈ S ent → b ∈ entityChars := fun ent hall hmem => hall b hmem
  unfold htmlEntity at hb
  split at hb
  · exact Or.inr (hsub "&amp;" (by decide) hb)
  · split at hb
    · exact Or.inr (hsub "&lt;" (by decide) hb)
    · split at hb
      · exact Or.inr (hsub "&gt;" (by decide) hb)
      · split at hb
        · exact Or.inr (hsub "&quot;" (by decide) hb)
        · split at hb
          · exact Or.inr (hsub "&#39;" (by decide) hb)
          · left
            simp only [List.mem_singleton] at hb
            subst hb
            refine ⟨rfl, ?_⟩
            simp only [escapeSet, List.mem_cons, List.not_mem_nil]
            push_neg
            simp_all
/-- Membership in an escaped string: only unescapable original characters
and entity characters occur. -/
theorem mem_escapeHtml {b : Char} {s : Str} (hb : b ∈ escapeHtml s) :
    (b ∈ s ∧ b ∉ escapeSet) ∨ b ∈ entityChars := by
  unfold escapeHtml at hb
  rw [List.mem_flatMap] at hb
  obtain ⟨c, hc, hbc⟩ := hb
  rcases mem_htmlEntity hbc with ⟨rfl, hne⟩ | h
  · exact Or.inl ⟨hc, hne⟩
  · exact Or.inr h

/-- `'<'` never occurs in escaped output. -/
theorem lt_not_mem_escapeHtml (s : Str) : '<' ∉ escapeHtml s := by
  intro h
  rcases mem_escapeHtml h with ⟨_, hne⟩ | h2
  · exact hne (by decide)
  · simp [entityChars] at h2

/-- `'['` never occurs in escaped output unless it was in the input. -/
theorem lbrack_not_mem_escapeHtml {s : Str} (hs : '[' ∉ s) : '[' ∉ escapeHtml s := by
  intro h
  rcases mem_escapeHtml h with ⟨hmem, _⟩ | h2
  · exact hs hmem
  · simp [entityChars] at h2

/-- C9: `escapeHtml` is total (it is a function of this model) and its
output never contains `<`, `>`, `"` or `'`; non-string, null and
empty-string arguments produce the empty string. -/
theorem c9_escapeHtml_output_safe (v : JsArg) :
    ((escapeHtmlJs v).all
      (fun c => !((['<', '>', '"', '\x27'] : List Char).contains c)) = true) ∧
    escapeHtmlJs JsArg.nonString = [] ∧ escapeHtmlJs (JsArg.str []) = [] := by
  refine ⟨?_, rfl, rfl⟩
  rw [List.all_eq_true]
  intro b hb
  have hbmem : b ∈ escapeHtmlJs v := hb
  have : b ∉ (['<', '>', '"', '\x27'] : List Char) := by
    cases v with
    | nonString => simp [escapeHtmlJs] at hbmem
    | str s =>
      by_cases hnil : s = []
      · simp [escapeHtmlJs, hnil] at hbmem
      · rw [show escapeHtmlJs (JsArg.str s) = escapeHtml s by
            simp [escapeHtmlJs, hnil]] at hbmem
        rcases mem_escapeHtml hbmem with ⟨_, hne⟩ | h2
        · intro hmem
          apply hne
          simp only [escapeSet, List.mem_cons, List.not_mem_nil] at *
          tauto
        · intro hmem
          simp only [entityChars, List.mem_cons, List.not_mem_nil] at h2
          simp only [List.mem_cons, List.not_mem_nil] at hmem
          rcases hmem with rfl | rfl | rfl | rfl | h <;> simp_all
  simpa using this

/-- C1: evaluating `parse` on a document whose front matter has
`tags: a, b` shows that the result's `metadata.tags` is the raw string
`"a, b"` (the `...metadata` spread overrides the computed split), not the
claimed trimmed sequence `["a", "b"]`. -/
theorem c1_tags_overridden_by_spread :
    (parse (S "---\ntags: a, b\n---\nbody") (S "2024-01-01")).metadata.tags
      = MetaValue.str (S "a, b") ∧
    MetaValue.str (S "a, b") ≠ MetaValue.list [S "a", S "b"] := by
  constructor
  · decide
  · decide

/-- Overrides the `metadata.date` field of a result. -/
def setDate (r : ParseResult) (d : Str) : ParseResult :=
  { r with metadata := { r.metadata with date := d } }

/-- C2 (amended): two `parse` calls on the same input agree everywhere
except possibly `metadata.date`, and agree completely whenever the front
matter supplies a `date` key; the pipeline is a pure function of the input
string and the current date. -/
theorem c2_parse_deterministic_up_to_date (s t1 t2 d : Str) :
    setDate (parse s t1) d = setDate (parse s t2) d ∧
    (((parseMetadata s).1.lookup (S "date")).isSome = true →
      parse s t1 = parse s t2) := by
  constructor
  · simp [parse, setDate, mkRMeta]
  · intro h
    obtain ⟨v, hv⟩ := Option.isSome_iff_exists.mp h
    simp [parse, mkRMeta, hv]

/-- C2 (amended) witness: with a `date` key the two calls agree exactly. -/
theorem c2_parse_deterministic_up_to_date_witness :
    parse (S "---\ndate: 2024-05-05\n---\nx") (S "2024-01-01")
      = parse (S "---\ndate: 2024-05-05\n---\nx") (S "2024-02-02") :=
  (c2_parse_deterministic_up_to_date (S "---\ndate: 2024-05-05\n---\nx")
    (S "2024-01-01") (S "2024-02-02") []).2 (by decide)

/-- C2 (counterexample): on input `"x"` (no `date` key) the result depends
on the current date, so `parse` is not a function of the input string
alone. -/
theorem c2_counterexample_clock_dependence :
    parse (S "x") (S "2024-01-01") ≠ parse (S "x") (S "2024-01-02") := by
  intro h
  have h1 : (parse (S "x") (S "2024-01-01")).metadata.date = S "2024-01-01" := by decide
  have h2 : (parse (S "x") (S "2024-01-02")).metadata.date = S "2024-01-02" := by decide
  rw [h] at h1
  rw [h2] at h1
  exact absurd h1 (by decide)

/-- C5: the guard fails with `InvalidInput` exactly on absent, non-string
or empty inputs; on every other input `parse` returns a result (all inner
stages are total, so no `ParseFailure` is ever produced and the catch
wrapper has nothing to re-raise). -/
theorem c5_input_guard (arg : JsArg) (today : Str) :
    (parseJs arg today = Except.error ParseError.invalidInput ↔
      invalidArg arg = true) ∧
    (invalidArg arg = false → ∃ r, parseJs arg today = Except.ok r) ∧
    (∀ m, parseJs arg today ≠ Except.error (ParseError.parseFailure m)) := by
  cases arg with
  | nonString => simp [parseJs, invalidArg]
  | str s =>
    by_cases hs : s = [] <;> simp [parseJs, invalidArg, hs]

/-- C5 witness: a concrete valid input parses successfully. -/
theorem c5_input_guard_witness :
    ∃ r, parseJs (JsArg.str (S "x")) (S "2024-01-01") = Except.ok r :=
  (c5_input_guard (JsArg.str (S "x")) (S "2024-01-01")).2.1 (by decide)

/-- C4 (counterexample): the front-matter value `"a'` has a mismatched
leading/trailing quote pair, yet `parseMetadata` stores `a` — the quotes
are stripped rather than left unchanged. -/
theorem c4_counterexample_mismatched_quotes :
    (parseMetadata (S "---\nk: \"a" ++ ['\x27'] ++ S "\n---\nrest")).1.lookup (S "k")
      = some (S "a") ∧
    ¬ (S "a" = S "\"a" ++ ['\x27']) := by
  constructor
  · decide
  · decide

/-- C4 (amended): the value cleanup removes one leading quote character and
one trailing quote character independently; any leading/trailing quote
pair, matching or not, is stripped. -/
theorem c4_strip_quotes_independent (c c' : Char) (m : Str)
    (h1 : isQuote c = true) (h2 : isQuote c' = true) :
    stripQuotes (c :: (m ++ [c'])) = m := by
  have hrev : (m ++ [c']).reverse = c' :: m.reverse := by simp
  simp [stripQuotes, h1, hrev, h2]

/-- C4 (amended) witness: the mismatched pair `"a'` becomes `a`. -/
theorem c4_strip_quotes_independent_witness :
    stripQuotes ('"' :: (S "a" ++ ['\x27'])) = S "a" :=
  c4_strip_quotes_independent '"' '\x27' (S "a") (by decide) (by decide)

/-- The document opens with the `---` characters of a front-matter
delimiter. -/
def startsDashes (s : Str) : Bool := (S "---").isPrefixOf s

/-- Whether a closing front-matter delimiter (`\n---` followed by `\s*\n`)
occurs anywhere in the text. -/
def hasCloseDelim : Str → Bool
  | [] => false
  | c :: cs =>
    ((S "\n---").isPrefixOf (c :: cs) && (metaClose ((c :: cs).drop 4)).isSome) ||
      hasCloseDelim cs

/-- A successful body scan implies a closing delimiter occurrence. -/
theorem metaBodyScan_some_hasClose {u : Str} {pr : Str × Str}
    (h : metaBodyScan u = some pr) : hasCloseDelim u = true := by
  induction u generalizing pr with
  | nil => simp [metaBodyScan] at h
  | cons c cs ih =>
    rw [metaBodyScan] at h
    rw [hasCloseDelim]
    split at h
    · rename_i hpre
      cases hclose : metaClose ((c :: cs).drop 4) with
      | some rest => simp [hpre, hclose]
      | none =>
        rw [hclose] at h
        cases hrec : metaBodyScan cs with
        | none => rw [hrec] at h; simp at h
        | some pr2 => rw [ih hrec]; simp
    · cases hrec : metaBodyScan cs with
      | none => rw [hrec] at h; simp at h
      | some pr2 => rw [ih hrec]; simp

/-- Absence of a closing delimiter is inherited by suffixes. -/
theorem hasCloseDelim_drop {u : Str} (h : hasCloseDelim u = false) (n : Nat) :
    hasCloseDelim (u.drop n) = false := by
  induction u generalizing n with
  | nil => simp [hasCloseDelim]
  | cons c cs ih =>
    cases n with
    | zero => exact h
    | succ m =>
      rw [hasCloseDelim] at h
      simp only [Bool.or_eq_false_iff] at h
      simpa using ih h.2 m

/-- C3: a document opening with `---` but containing no closing `---`
delimiter yields empty metadata and the trimmed full original text as
body. -/
theorem c3_missing_close_delimiter (s : Str)
    (h1 : startsDashes s = true)
    (h2 : hasCloseDelim (s.drop 3) = false) :
    parseMetadata s = ([], trimStr s) := by
  obtain ⟨t, rfl⟩ : ∃ t, s = S "---" ++ t := by
    have := List.isPrefixOf_iff_prefix.mp h1
    obtain ⟨t, ht⟩ := this
    exact ⟨t, ht.symm⟩
  have hdrop : (S "---" ++ t).drop 3 = t := List.drop_left (S "---") t
  rw [hdrop] at h2
  have hnone : matchMeta (S "---" ++ t) = none := by
    show ((wsNlPositions t).reverse.findSome?
      (fun k => metaBodyScan (t.drop (k + 1)))) = none
    rw [List.findSome?_eq_none_iff]
    intro k _
    cases hscan : metaBodyScan (t.drop (k + 1)) with
    | none => rfl
    | some pr =>
      have := metaBodyScan_some_hasClose hscan
      rw [hasCloseDelim_drop h2 (k + 1)] at this
      exact absurd this (by simp)
  rw [parseMetadata, hnone]

/-- C3 witness: a concrete document with an opening delimiter and no
closing one. -/
theorem c3_missing_close_delimiter_witness :
    parseMetadata (S "---\ntitle: x") = ([], trimStr (S "---\ntitle: x")) :=
  c3_missing_close_delimiter (S "---\ntitle: x") (by decide) (by decide)

/-- C6: an unordered-list line immediately followed by an ordered-list line
produces a closed `<ul>` before the `<ol>` is opened — two separate lists,
never one mixed list. -/
theorem c6_list_type_switch (l1 l2 a b : Str)
    (h1 : matchULine l1 = some a)
    (h2u : matchULine l2 = none) (h2o : matchOLine l2 = some b) :
    parseListsLines [l1, l2] =
      [ulOpenStr, liStr a, ulCloseStr, olOpenStr, liStr b, olCloseStr] := by
  simp [parseListsLines, listScan, h1, h2u, h2o]

/-- C6 witness: the concrete input lines `- a` and `1. b`. -/
theorem c6_list_type_switch_witness :
    parseListsLines [S "- a", S "1. b"] =
      [ulOpenStr, liStr (S "a"), ulCloseStr, olOpenStr, liStr (S "b"), olCloseStr] :=
  c6_list_type_switch (S "- a") (S "1. b") (S "a") (S "b")
    (by decide) (by decide) (by decide)

/-- Boolean substring occurrence test. -/
def hasSubstr (pat : Str) : Str → Bool
  | [] => pat.isEmpty
  | c :: cs => pat.isPrefixOf (c :: cs) || hasSubstr pat cs

/-- C7 (counterexample): the single image span `![x]([a](b)` (the URL
contains link syntax, which survives escaping) is replaced by an `<img>`
whose text the link pass then matches, producing an `<a>` element out of
the same span. -/
theorem c7_counterexample_link_from_image_span :
    hasSubstr (S "<a href=") (parseLinksAndImages (S "![x]([a](b) hey)")) = true := by
  decide

/-- A pattern whose head character does not occur in `s` occurs nowhere. -/
theorem hasSubstr_head_not_mem {c1 : Char} {pat s : Str} (h : c1 ∉ s) :
    hasSubstr (c1 :: pat) s = false := by
  induction s with
  | nil => rfl
  | cons c cs ih =>
    rw [hasSubstr]
    have hc : ¬(c1 = c) := fun he => h (he ▸ List.mem_cons_self c cs)
    have hpre : (c1 :: pat).isPrefixOf (c :: cs) = false := by
      simp [List.isPrefixOf, hc]
    rw [hpre, ih (fun hm => h (List.mem_cons_of_mem c hm))]
    rfl

/-- `<a` does not occur in `'<' :: x :: r` when `x ≠ 'a'` and `<` does not
occur in `x :: r`. -/
theorem hasSubstr_la_cons {x : Char} {r : Str}
    (hlt : '<' ∉ (x :: r)) (hx : ¬(x = 'a')) :
    hasSubstr (S "<a") ('<' :: x :: r) = false := by
  have hpat : S "<a" = '<' :: S "a" := rfl
  rw [hasSubstr]
  have h2 : hasSubstr (S "<a") (x :: r) = false := by
    rw [hpat]; exact hasSubstr_head_not_mem hlt
  have hx' : ¬('a' = x) := fun he => hx he.symm
  have h1 : (S "<a").isPrefixOf ('<' :: x :: r) = false := by
    simp [S, List.isPrefixOf, hx']
  rw [h1, h2]
  rfl

/-- `replaceScanF` on the empty string. -/
theorem replaceScanF_nil (f : Str → Option (Nat × Str)) (fuel : Nat) :
    replaceScanF f fuel [] = [] := by
  cases fuel <;> rfl

/-- `replaceScanF` step on a match. -/
theorem replaceScanF_cons_some {f : Str → Option (Nat × Str)} {c : Char}
    {cs : Str} {n : Nat} {repl : Str} (fuel : Nat)
    (h : f (c :: cs) = some (n, repl)) :
    replaceScanF f (fuel + 1) (c :: cs) =
      repl ++ replaceScanF f fuel (cs.drop (n - 1)) := by
  simp only [replaceScanF, h]

/-- `replaceScanF` step on a non-match. -/
theorem replaceScanF_cons_none {f : Str → Option (Nat × Str)} {c : Char}
    {cs : Str} (fuel : Nat) (h : f (c :: cs) = none) :
    replaceScanF f (fuel + 1) (c :: cs) = c :: replaceScanF f fuel cs := by
  simp only [replaceScanF, h]

/-- The link pass leaves any text without `[` unchanged (fuel form). -/
theorem replaceScanF_link_id :
    ∀ (fuel : Nat) (s : Str), s.length ≤ fuel → '[' ∉ s →
      replaceScanF linkMatcher fuel s = s := by
  intro fuel
  induction fuel with
  | zero =>
    intro s hle _
    cases s with
    | nil => rfl
    | cons c cs => simp at hle
  | succ m ih =>
    intro s hle h
    cases s with
    | nil => rfl
    | cons c cs =>
      have hc : ¬(c = '[') := fun he => h (he ▸ List.mem_cons_self c cs)
      have hnone : linkMatcher (c :: cs) = none := by
        simp [linkMatcher, hc]
      rw [replaceScanF_cons_none m hnone,
        ih cs (by simpa using hle)
          (fun hm => h (List.mem_cons_of_mem c hm))]

/-- The link pass leaves any text without `[` unchanged. -/
theorem replaceScan_link_id {s : Str} (h : '[' ∉ s) :
    replaceScan linkMatcher s = s :=
  replaceScanF_link_id s.length s le_rfl h

/-- The tail of the generated `<img>` element after its `<i` head. -/
def imgTail (alt url : Str) : Str :=
  S "mg src=\"" ++ escapeHtml url ++ S "\" alt=\"" ++ escapeHtml alt ++
  S "\" class=\"blog-image\" loading=\"lazy\">"

/-- The generated `<img>` element decomposes as `<`, `i`, tail. -/
theorem imgRepl_decomp (alt url : Str) :
    imgRepl alt url = '<' :: 'i' :: imgTail alt url := rfl

/-- `<` occurs in the generated `<img>` element only as its first
character. -/
theorem lt_not_mem_imgTail (alt url : Str) : '<' ∉ imgTail alt url := by
  intro hmem
  rw [imgTail] at hmem
  simp only [List.mem_append] at hmem
  rcases hmem with ((((h | h) | h) | h) | h)
  · exact absurd h (by decide)
  · exact lt_not_mem_escapeHtml url h
  · exact absurd h (by decide)
  · exact lt_not_mem_escapeHtml alt h
  · exact absurd h (by decide)

/-- `[` does not occur in the generated `<img>` element when it occurs in
neither the alt text nor the URL. -/
theorem lbrack_not_mem_imgRepl {alt url : Str}
    (h2 : '[' ∉ alt) (h4 : '[' ∉ url) : '[' ∉ imgRepl alt url := by
  intro hmem
  rw [imgRepl] at hmem
  simp only [List.mem_append] at hmem
  rcases hmem with ((((h | h) | h) | h) | h)
  · exact absurd h (by decide)
  · exact lbrack_not_mem_escapeHtml h4 h
  · exact absurd h (by decide)
  · exact lbrack_not_mem_escapeHtml h2 h
  · exact absurd h (by decide)

/-- C7 (amended): an image span whose alt text and URL contain no `[`
(and are otherwise well formed: no `]` in the alt, no `)` in the nonempty
URL) is replaced by exactly one `<img>` element, from which the link pass
produces no `<a>` element. -/
theorem c7_image_never_also_link (alt url : Str)
    (h1 : ']' ∉ alt) (h2 : '[' ∉ alt)
    (h3 : ')' ∉ url) (h4 : '[' ∉ url) (h5 : url ≠ []) :
    parseLinksAndImages (S "![" ++ alt ++ S "](" ++ url ++ S ")") = imgRepl alt url ∧
    hasSubstr (S "<a") (imgRepl alt url) = false := by
  have hs1 : S "![" = ['!', '['] := rfl
  have hs2 : S "](" = [']', '('] := rfl
  have hs3 : S ")" = [')'] := rfl
  have hshape : S "![" ++ alt ++ S "](" ++ url ++ S ")" =
      '!' :: '[' :: (alt ++ ']' :: '(' :: (url ++ [')'])) := by
    rw [hs1, hs2, hs3]
    simp [List.append_assoc]
  have htake : (alt ++ ']' :: '(' :: (url ++ [')'])).takeWhile
      (fun c => !(c = ']')) = alt := by
    rw [List.takeWhile_append_of_pos]
    · simp [List.takeWhile_cons]
    · intro a ha
      simp only [Bool.not_eq_eq_eq_not, Bool.not_true, decide_eq_false_iff_not]
      exact fun he => h1 (he ▸ ha)
  have hdrop : (alt ++ ']' :: '(' :: (url ++ [')'])).drop alt.length =
      ']' :: '(' :: (url ++ [')']) := List.drop_left alt _
  have htakeU : (url ++ [')']).takeWhile (fun c => !(c = ')')) = url := by
    rw [List.takeWhile_append_of_pos]
    · simp [List.takeWhile_cons]
    · intro a ha
      simp only [Bool.not_eq_eq_eq_not, Bool.not_true, decide_eq_false_iff_not]
      exact fun he => h3 (he ▸ ha)
  have hdropU : (url ++ [')']).drop url.length = [')'] := List.drop_left url _
  have himg : imageMatcher ('!' :: '[' :: (alt ++ ']' :: '(' :: (url ++ [')'])))
      = some (5 + alt.length + url.length, imgRepl alt url) := by
    simp only [imageMatcher, htake, hdrop, htakeU, hdropU, h5]
    simp
  have hlen : ('[' :: (alt ++ ']' :: '(' :: (url ++ [')']))).drop
      (5 + alt.length + url.length - 1) = [] := by
    apply List.drop_eq_nil_of_le
    simp
    omega
  have hscan1 : replaceScan imageMatcher
      ('!' :: '[' :: (alt ++ ']' :: '(' :: (url ++ [')']))) = imgRepl alt url := by
    show replaceScanF imageMatcher _ _ = _
    simp only [List.length_cons]
    rw [replaceScanF_cons_some _ himg, hlen, replaceScanF_nil]
    simp
  have hnolb : '[' ∉ imgRepl alt url := lbrack_not_mem_imgRepl h2 h4
  constructor
  · rw [parseLinksAndImages, hshape, hscan1]
    exact replaceScan_link_id hnolb
  · rw [imgRepl_decomp]
    apply hasSubstr_la_cons
    · intro hmem
      rcases List.mem_cons.mp hmem with he | hmem2
      · exact absurd he (by decide)
      · exact lt_not_mem_imgTail alt url hmem2
    · decide

/-- C7 (amended) witness: the concrete span `![x](u)`. -/
theorem c7_image_never_also_link_witness :
    parseLinksAndImages (S "![" ++ S "x" ++ S "](" ++ S "u" ++ S ")")
      = imgRepl (S "x") (S "u") ∧
    hasSubstr (S "<a") (imgRepl (S "x") (S "u")) = false :=
  c7_image_never_also_link (S "x") (S "u")
    (by decide) (by decide) (by decide) (by decide) (by decide)

/-! ### C8: word counting -/

/-- The words of a string in the sense of the specification: the maximal
whitespace-separated runs, in order (fuel instantiated with the length). -/
def wordsOfF : Nat → Str → List Str
  | _, [] => []
  | 0, _ :: _ => []
  | fuel + 1, c :: cs =>
    if isWs c then wordsOfF fuel cs
    else (c :: cs.takeWhile (fun x => !isWs x)) :: wordsOfF fuel (cs.dropWhile (fun x => !isWs x))

/-- The whitespace-separated words of a string. -/
def wordsOf (s : Str) : List Str := wordsOfF s.length s

/-- `jsSplitWsGoF` on the empty string. -/
theorem jsSplitWsGoF_nil (fuel : Nat) (acc : Str) :
    jsSplitWsGoF fuel acc [] = [acc.reverse] := by
  cases fuel <;> rfl

/-- `wordsOfF` on the empty string. -/
theorem wordsOfF_nil (fuel : Nat) : wordsOfF fuel [] = [] := by
  cases fuel <;> rfl

/-- With sufficient fuel, `jsSplitWsGoF` does not depend on the fuel. -/
theorem jsSplitWsGoF_fuel :
    ∀ (n fuel fuel' : Nat) (acc s : Str), s.length ≤ n →
      s.length ≤ fuel → s.length ≤ fuel' →
      jsSplitWsGoF fuel acc s = jsSplitWsGoF fuel' acc s := by
  intro n
  induction n with
  | zero =>
    intro fuel fuel' acc s hn _ _
    have : s = [] := List.length_eq_zero.mp (Nat.le_zero.mp hn)
    subst this
    rw [jsSplitWsGoF_nil, jsSplitWsGoF_nil]
  | succ m ih =>
    intro fuel fuel' acc s hn hf hf'
    cases s with
    | nil => rw [jsSplitWsGoF_nil, jsSplitWsGoF_nil]
    | cons c cs =>
      simp only [List.length_cons] at hn hf hf'
      cases fuel with
      | zero => omega
      | succ f =>
        cases fuel' with
        | zero => omega
        | succ f' =>
          rw [jsSplitWsGoF, jsSplitWsGoF]
          by_cases hws : isWs c
          · have hlen : (cs.dropWhile isWs).length ≤ cs.length :=
              List.Sublist.length_le (List.dropWhile_sublist _)
            simp only [hws, if_true]
            rw [ih f f' [] (cs.dropWhile isWs) (by omega) (by omega) (by omega)]
          · simp only [hws, Bool.false_eq_true, if_false]
            exact ih f f' (c :: acc) cs (by omega) (by omega) (by omega)

/-- With sufficient fuel, `wordsOfF` does not depend on the fuel. -/
theorem wordsOfF_fuel :
    ∀ (n fuel fuel' : Nat) (s : Str), s.length ≤ n →
      s.length ≤ fuel → s.length ≤ fuel' →
      wordsOfF fuel s = wordsOfF fuel' s := by
  intro n
  induction n with
  | zero =>
    intro fuel fuel' s hn _ _
    have : s = [] := List.length_eq_zero.mp (Nat.le_zero.mp hn)
    subst this
    rw [wordsOfF_nil, wordsOfF_nil]
  | succ m ih =>
    intro fuel fuel' s hn hf hf'
    cases s with
    | nil => rw [wordsOfF_nil, wordsOfF_nil]
    | cons c cs =>
      simp only [List.length_cons] at hn hf hf'
      cases fuel with
      | zero => omega
      | succ f =>
        cases fuel' with
        | zero => omega
        | succ f' =>
          rw [wordsOfF, wordsOfF]
          by_cases hws : isWs c
          · simp only [hws, if_true]
            exact ih f f' cs (by omega) (by omega) (by omega)
          · have hlen : (cs.dropWhile (fun x => !isWs x)).length ≤ cs.length :=
              List.Sublist.length_le (List.dropWhile_sublist _)
            simp only [hws, Bool.false_eq_true, if_false]
            rw [ih f f' (cs.dropWhile (fun x => !isWs x)) (by omega) (by omega) (by omega)]

/-- `jsSplitWsGoF` moves a whole non-whitespace run into the accumulator. -/
theorem jsSplitWsGoF_token :
    ∀ (w : Str) (fuel : Nat) (acc rest : Str), (∀ x ∈ w, isWs x = false) →
      w.length ≤ fuel →
      jsSplitWsGoF fuel acc (w ++ rest) =
        jsSplitWsGoF (fuel - w.length) (w.reverse ++ acc) rest := by
  intro w
  induction w with
  | nil => intro fuel acc rest _ _; simp
  | cons x w' ih =>
    intro fuel acc rest hnw hle
    simp only [List.length_cons] at hle
    cases fuel with
    | zero => omega
    | succ f =>
      have hx : isWs x = false := hnw x (List.mem_cons_self x w')
      rw [List.cons_append, jsSplitWsGoF]
      simp only [hx, Bool.false_eq_true, if_false]
      rw [ih f (x :: acc) rest (fun y hy => hnw y (List.mem_cons_of_mem x hy)) (by omega)]
      simp only [List.reverse_cons, List.append_assoc, List.singleton_append,
        List.length_cons]
      congr 1
      omega

/-- The head of a `dropWhile` result fails the predicate. -/
theorem head_dropWhile_false {p : Char → Bool} {l : Str} {c : Char} {cs : Str}
    (h : l.dropWhile p = c :: cs) : p c = false := by
  induction l with
  | nil => simp at h
  | cons x xs ih =>
    rw [List.dropWhile_cons] at h
    split at h
    · exact ih h
    · rename_i hx
      obtain ⟨rfl, _⟩ := List.cons.injEq .. ▸ h
      · simpa using hx

/-- The last element of a list with a nonempty suffix is the last element
of the suffix. -/
theorem getLast?_append_right {pre suf : Str} (h : suf ≠ []) :
    (pre ++ suf).getLast? = suf.getLast? := by
  rw [List.getLast?_append]
  cases hl : suf.getLast? with
  | some a => rfl
  | none => exact absurd (List.getLast?_eq_none_iff.mp hl) h

/-- The last element of a list is a member. -/
theorem mem_of_getLast? : ∀ {l : Str} {a : Char}, l.getLast? = some a → a ∈ l := by
  intro l
  induction l with
  | nil => simp
  | cons c cs ih =>
    intro a h
    cases cs with
    | nil =>
      simp only [List.getLast?_singleton, Option.some.injEq] at h
      simp [h]
    | cons d ds =>
      rw [List.getLast?_cons_cons] at h
      exact List.mem_cons_of_mem c (ih h)

/-- `wordsOf` step on a non-whitespace head character. -/
theorem wordsOf_cons_token {c : Char} {cs : Str} (hc : isWs c = false) :
    wordsOf (c :: cs) =
      (c :: cs.takeWhile (fun x => !isWs x)) ::
        wordsOf (cs.dropWhile (fun x => !isWs x)) := by
  show wordsOfF (c :: cs).length (c :: cs) = _
  simp only [List.length_cons]
  rw [wordsOfF]
  simp only [hc, Bool.false_eq_true, if_false]
  congr 1
  exact wordsOfF_fuel cs.length cs.length (cs.dropWhile (fun x => !isWs x)).length
    (cs.dropWhile (fun x => !isWs x))
    (List.Sublist.length_le (List.dropWhile_sublist _))
    (List.Sublist.length_le (List.dropWhile_sublist _)) le_rfl

/-- `wordsOf` ignores leading whitespace. -/
theorem wordsOf_dropWhile_ws :
    ∀ (n : Nat) (t : Str), t.length ≤ n → wordsOf t = wordsOf (t.dropWhile isWs) := by
  intro n
  induction n with
  | zero =>
    intro t hn
    have : t = [] := List.length_eq_zero.mp (Nat.le_zero.mp hn)
    subst this
    rfl
  | succ m ih =>
    intro t hn
    cases t with
    | nil => rfl
    | cons c cs =>
      by_cases hws : isWs c
      · rw [List.dropWhile_cons_of_pos hws]
        have h1 : wordsOf (c :: cs) = wordsOf cs := by
          show wordsOfF (c :: cs).length (c :: cs) = _
          simp only [List.length_cons]
          rw [wordsOfF]
          simp only [hws, if_true]
          rfl
        rw [h1]
        exact ih cs (by simpa using Nat.succ_le_succ_iff.mp (by simpa using hn))
      · rw [List.dropWhile_cons]
        simp [hws]

/-- The split used by `countWords` has exactly as many pieces as there are
whitespace-separated words, for a nonempty string with no leading and no
trailing whitespace. -/
theorem splitWs_words_length :
    ∀ (n : Nat) (t : Str), t.length ≤ n → t ≠ [] →
      (∀ c cs, t = c :: cs → isWs c = false) →
      (∀ c, t.getLast? = some c → isWs c = false) →
      (jsSplitWs t).length = (wordsOf t).length := by
  intro n
  induction n with
  | zero =>
    intro t hn ht _ _
    exact absurd (List.length_eq_zero.mp (Nat.le_zero.mp hn)) ht
  | succ m ih =>
    intro t hn ht hhead hlast
    cases t with
    | nil => exact absurd rfl ht
    | cons c cs =>
      have hc : isWs c = false := hhead c cs rfl
      have hsplit : cs.takeWhile (fun x => !isWs x) ++
          cs.dropWhile (fun x => !isWs x) = cs :=
        List.takeWhile_append_dropWhile ..
      have htw_all : ∀ x ∈ cs.takeWhile (fun x => !isWs x), isWs x = false := by
        intro x hx
        have := List.mem_takeWhile_imp hx
        simpa using this
      have hlen_split : (cs.takeWhile (fun x => !isWs x)).length +
          (cs.dropWhile (fun x => !isWs x)).length = cs.length := by
        conv_rhs => rw [← hsplit]
        simp only [List.length_append]
      have hjs : jsSplitWs (c :: cs) =
          jsSplitWsGoF ((cs.dropWhile (fun x => !isWs x)).length)
            ((cs.takeWhile (fun x => !isWs x)).reverse ++ [c])
            (cs.dropWhile (fun x => !isWs x)) := by
        have h2 := jsSplitWsGoF_token (cs.takeWhile (fun x => !isWs x)) cs.length
          [c] (cs.dropWhile (fun x => !isWs x)) htw_all (by omega)
        have h1 : jsSplitWs (c :: cs) = jsSplitWsGoF cs.length [c]
            (cs.takeWhile (fun x => !isWs x) ++ cs.dropWhile (fun x => !isWs x)) := by
          show jsSplitWsGoF (c :: cs).length [] (c :: cs) = _
          simp only [List.length_cons]
          rw [jsSplitWsGoF]
          simp only [hc, Bool.false_eq_true, if_false]
          rw [hsplit]
        rw [h1, h2]
        congr 1
        omega
      rw [wordsOf_cons_token hc, hjs]
      cases hrc : cs.dropWhile (fun x => !isWs x) with
      | nil =>
        rw [jsSplitWsGoF_nil]
        rfl
      | cons r rs =>
        have hr : isWs r = true := by
          have := head_dropWhile_false hrc
          simpa using this
        have hlast_rest : (c :: cs).getLast? = (r :: rs).getLast? := by
          have hform : c :: cs = (c :: cs.takeWhile (fun x => !isWs x)) ++ (r :: rs) := by
            rw [List.cons_append]
            rw [← hrc, hsplit]
          rw [hform]
          exact getLast?_append_right (by simp)
        have hstep : jsSplitWsGoF ((r : Char) :: rs).length
            ((cs.takeWhile (fun x => !isWs x)).reverse ++ [c]) (r :: rs) =
            ((cs.takeWhile (fun x => !isWs x)).reverse ++ [c]).reverse ::
              jsSplitWsGoF rs.length [] (rs.dropWhile isWs) := by
          simp only [List.length_cons]
          rw [jsSplitWsGoF]
          simp only [hr, if_true]
        have hfuel : jsSplitWsGoF rs.length [] (rs.dropWhile isWs) =
            jsSplitWs (rs.dropWhile isWs) :=
          jsSplitWsGoF_fuel rs.length rs.length (rs.dropWhile isWs).length []
            (rs.dropWhile isWs)
            (List.Sublist.length_le (List.dropWhile_sublist _))
            (List.Sublist.length_le (List.dropWhile_sublist _)) le_rfl
        have hwords : wordsOf (r :: rs) = wordsOf (rs.dropWhile isWs) := by
          have h1 : wordsOf (r :: rs) = wordsOf rs := by
            show wordsOfF (r :: rs).length (r :: rs) = _
            simp only [List.length_cons]
            rw [wordsOfF]
            simp only [hr, if_true]
            exact wordsOfF_fuel rs.length rs.length rs.length rs le_rfl le_rfl le_rfl
          rw [h1]
          exact wordsOf_dropWhile_ws rs.length rs le_rfl
        have ht'_ne : rs.dropWhile isWs ≠ [] := by
          intro hnil
          have hall : ∀ x ∈ rs, isWs x = true := List.dropWhile_eq_nil_iff.mp hnil
          have hallrest : ∀ x ∈ (r :: rs), isWs x = true := by
            intro x hx
            rcases List.mem_cons.mp hx with rfl | hx2
            · exact hr
            · exact hall x hx2
          obtain ⟨a, ha⟩ : ∃ a, (r :: rs).getLast? = some a := by
            cases hq : (r :: rs).getLast? with
            | some a => exact ⟨a, rfl⟩
            | none => simp [List.getLast?_eq_none_iff] at hq
          have hmem := mem_of_getLast? ha
          have := hlast a (by rw [hlast_rest]; exact ha)
          rw [hallrest a hmem] at this
          exact absurd this (by simp)
        have ht'_head : ∀ c' cs', rs.dropWhile isWs = c' :: cs' → isWs c' = false :=
          fun c' cs' he => head_dropWhile_false he
        have ht'_last : ∀ c', (rs.dropWhile isWs).getLast? = some c' →
            isWs c' = false := by
          intro c' hl
          apply hlast
          rw [hlast_rest]
          obtain ⟨pre, hpre⟩ : rs.dropWhile isWs <:+ rs := List.dropWhile_suffix isWs
          have hrs_ne : rs ≠ [] := by
            intro hnil
            apply ht'_ne
            rw [hnil]
            rfl
          have h2 : (r :: rs).getLast? = rs.getLast? := by
            show ([r] ++ rs).getLast? = rs.getLast?
            exact getLast?_append_right hrs_ne
          have h3 : rs.getLast? = (rs.dropWhile isWs).getLast? := by
            conv_lhs => rw [← hpre]
            exact getLast?_append_right ht'_ne
          rw [h2, h3]
          exact hl
        have ht'_len : (rs.dropWhile isWs).length ≤ m := by
          have h1 : (rs.dropWhile isWs).length ≤ rs.length :=
            List.Sublist.length_le (List.dropWhile_sublist _)
          have h2 : (cs.dropWhile (fun x => !isWs x)).length = rs.length + 1 := by
            rw [hrc]; rfl
          simp only [List.length_cons] at hn
          omega
        rw [hstep, hfuel]
        simp only [List.length_cons]
        rw [ih (rs.dropWhile isWs) ht'_len ht'_ne ht'_head ht'_last, hwords]


/-- A trimmed string never starts with whitespace. -/
theorem trimStr_head_not_ws {s : Str} {c : Char} {cs : Str}
    (h : trimStr s = c :: cs) : isWs c = false := by
  have hsuf : (s.dropWhile isWs).reverse.dropWhile isWs <:+
      (s.dropWhile isWs).reverse := List.dropWhile_suffix isWs
  have hpre : trimStr s <+: s.dropWhile isWs := by
    have h2 : ((s.dropWhile isWs).reverse.dropWhile isWs).reverse <+:
        ((s.dropWhile isWs).reverse).reverse := List.reverse_prefix.mpr hsuf
    rw [List.reverse_reverse] at h2
    exact h2
  obtain ⟨t2, ht2⟩ := hpre
  rw [h] at ht2
  exact head_dropWhile_false
    (show s.dropWhile isWs = c :: (cs ++ t2) by rw [← ht2]; rfl)

/-- A trimmed string never ends with whitespace. -/
theorem trimStr_last_not_ws {s : Str} {c : Char}
    (h : (trimStr s).getLast? = some c) : isWs c = false := by
  have h1 : (trimStr s).getLast? =
      ((s.dropWhile isWs).reverse.dropWhile isWs).head? := by
    show ((((s.dropWhile isWs).reverse.dropWhile isWs)).reverse).getLast? = _
    rw [List.getLast?_reverse]
  rw [h1] at h
  cases hx : (s.dropWhile isWs).reverse.dropWhile isWs with
  | nil => rw [hx] at h; simp at h
  | cons d ds =>
    rw [hx] at h
    simp only [List.head?_cons, Option.some.injEq] at h
    subst h
    exact head_dropWhile_false hx

/-- C8: `countWords` equals the number of whitespace-separated words left
after stripping all HTML tags and trimming (0 for empty content), and
`estimateReadTime` equals `max 1 ⌈wordCount / 200⌉`, hence is never below
1. -/
theorem c8_word_count_and_read_time (content : Str) :
    countWords content = (wordsOf (trimStr (stripTags content))).length ∧
    estimateReadTime content = max 1 ((countWords content + 199) / 200) ∧
    1 ≤ estimateReadTime content := by
  refine ⟨?_, ?_, ?_⟩
  · by_cases h : trimStr (stripTags content) = []
    · have h0 : countWords content = 0 := by simp [countWords, h]
      rw [h0, h]
      rfl
    · have h1 : countWords content =
          (jsSplitWs (trimStr (stripTags content))).length := by
        simp [countWords, h]
      rw [h1]
      exact splitWs_words_length (trimStr (stripTags content)).length _ le_rfl h
        (fun c cs he => trimStr_head_not_ws he)
        (fun c hl => trimStr_last_not_ws hl)
  · have harith : countWords content + 200 - 1 = countWords content + 199 := by omega
    rw [estimateReadTime, harith]
  · rw [estimateReadTime]
    exact Nat.le_max_left 1 _

/-! ### C10: list open/close balance -/

/-- The four wrapper tag lines `parseLists` can emit. -/
def listTags : List Str := [ulOpenStr, ulCloseStr, olOpenStr, olCloseStr]

/-- C10 (counterexample): a document whose single line is the literal text
`</ul>` passes through unchanged, so the output line sequence contains one
`</ul>` line but no `<ul` opening line. -/
theorem c10_counterexample_literal_close_line :
    ¬ ((parseListsLines (splitOnCh '\n' (S "</ul>"))).count ulCloseStr =
       (parseListsLines (splitOnCh '\n' (S "</ul>"))).count ulOpenStr) := by
  decide

/-- Lists differing at index 1 are different. -/
theorem ne_of_idx1 {a b : Str} {x y : Char} (ha : a[1]? = some x)
    (hb : b[1]? = some y) (hxy : x ≠ y) : a ≠ b := by
  intro h
  rw [h, hb] at ha
  injection ha with h2
  exact hxy h2.symm

/-- An emitted `<li>` line is never one of the wrapper tag lines. -/
theorem liStr_ne_tag (txt τ : Str) (hτ : τ ∈ listTags) : liStr txt ≠ τ := by
  have ha : (liStr txt)[1]? = some 'l' := rfl
  simp only [listTags, List.mem_cons, List.not_mem_nil, or_false] at hτ
  rcases hτ with rfl | rfl | rfl | rfl
  · exact ne_of_idx1 ha rfl (by decide)
  · exact ne_of_idx1 ha rfl (by decide)
  · exact ne_of_idx1 ha rfl (by decide)
  · exact ne_of_idx1 ha rfl (by decide)

/-- Count of `</ul>` past a `<ul>` head. -/
@[simp] theorem cnt_uC_uO (l : List Str) :
    List.count ulCloseStr (ulOpenStr :: l) = List.count ulCloseStr l :=
  List.count_cons_of_ne (by decide) l

/-- Count of `</ul>` past an `<ol>` head. -/
@[simp] theorem cnt_uC_oO (l : List Str) :
    List.count ulCloseStr (olOpenStr :: l) = List.count ulCloseStr l :=
  List.count_cons_of_ne (by decide) l

/-- Count of `</ul>` past an `</ol>` head. -/
@[simp] theorem cnt_uC_oC (l : List Str) :
    List.count ulCloseStr (olCloseStr :: l) = List.count ulCloseStr l :=
  List.count_cons_of_ne (by decide) l

/-- Count of `<ul>` past a `</ul>` head. -/
@[simp] theorem cnt_uO_uC (l : List Str) :
    List.count ulOpenStr (ulCloseStr :: l) = List.count ulOpenStr l :=
  List.count_cons_of_ne (by decide) l

/-- Count of `<ul>` past an `<ol>` head. -/
@[simp] theorem cnt_uO_oO (l : List Str) :
    List.count ulOpenStr (olOpenStr :: l) = List.count ulOpenStr l :=
  List.count_cons_of_ne (by decide) l

/-- Count of `<ul>` past an `</ol>` head. -/
@[simp] theorem cnt_uO_oC (l : List Str) :
    List.count ulOpenStr (olCloseStr :: l) = List.count ulOpenStr l :=
  List.count_cons_of_ne (by decide) l

/-- Count of `</ol>` past a `<ul>` head. -/
@[simp] theorem cnt_oC_uO (l : List Str) :
    List.count olCloseStr (ulOpenStr :: l) = List.count olCloseStr l :=
  List.count_cons_of_ne (by decide) l

/-- Count of `</ol>` past a `</ul>` head. -/
@[simp] theorem cnt_oC_uC (l : List Str) :
    List.count olCloseStr (ulCloseStr :: l) = List.count olCloseStr l :=
  List.count_cons_of_ne (by decide) l

/-- Count of `</ol>` past an `<ol>` head. -/
@[simp] theorem cnt_oC_oO (l : List Str) :
    List.count olCloseStr (olOpenStr :: l) = List.count olCloseStr l :=
  List.count_cons_of_ne (by decide) l

/-- Count of `<ol>` past a `<ul>` head. -/
@[simp] theorem cnt_oO_uO (l : List Str) :
    List.count olOpenStr (ulOpenStr :: l) = List.count olOpenStr l :=
  List.count_cons_of_ne (by decide) l

/-- Count of `<ol>` past a `</ul>` head. -/
@[simp] theorem cnt_oO_uC (l : List Str) :
    List.count olOpenStr (ulCloseStr :: l) = List.count olOpenStr l :=
  List.count_cons_of_ne (by decide) l

/-- Count of `<ol>` past an `</ol>` head. -/
@[simp] theorem cnt_oO_oC (l : List Str) :
    List.count olOpenStr (olCloseStr :: l) = List.count olOpenStr l :=
  List.count_cons_of_ne (by decide) l

/-- Count of `</ul>` past an `<li>` head. -/
@[simp] theorem cnt_uC_li (txt : Str) (l : List Str) :
    List.count ulCloseStr (liStr txt :: l) = List.count ulCloseStr l :=
  List.count_cons_of_ne (Ne.symm (liStr_ne_tag txt _ (by decide))) l

/-- Count of `<ul>` past an `<li>` head. -/
@[simp] theorem cnt_uO_li (txt : Str) (l : List Str) :
    List.count ulOpenStr (liStr txt :: l) = List.count ulOpenStr l :=
  List.count_cons_of_ne (Ne.symm (liStr_ne_tag txt _ (by decide))) l

/-- Count of `</ol>` past an `<li>` head. -/
@[simp] theorem cnt_oC_li (txt : Str) (l : List Str) :
    List.count olCloseStr (liStr txt :: l) = List.count olCloseStr l :=
  List.count_cons_of_ne (Ne.symm (liStr_ne_tag txt _ (by decide))) l

/-- Count of `<ol>` past an `<li>` head. -/
@[simp] theorem cnt_oO_li (txt : Str) (l : List Str) :
    List.count olOpenStr (liStr txt :: l) = List.count olOpenStr l :=
  List.count_cons_of_ne (Ne.symm (liStr_ne_tag txt _ (by decide))) l

/-- Counts over the emitted lines of `listScan`: the number of emitted
closing tags equals the number of emitted opening tags plus the pending
open list of the respective type, provided no input line is itself a
wrapper tag line. -/
theorem listScan_count (lines : List Str) :
    ∀ (inUL inOL : Bool), (∀ l ∈ lines, l ∉ listTags) →
      (List.count ulCloseStr (listScan inUL inOL lines) =
        List.count ulOpenStr (listScan inUL inOL lines) +
          (if inUL then 1 else 0)) ∧
      (List.count olCloseStr (listScan inUL inOL lines) =
        List.count olOpenStr (listScan inUL inOL lines) +
          (if inOL then 1 else 0)) := by
  induction lines with
  | nil =>
    intro inUL inOL _
    cases inUL <;> cases inOL <;> exact ⟨by decide, by decide⟩
  | cons l ls ih =>
    intro inUL inOL hcl
    have hl : l ∉ listTags := hcl l (List.mem_cons_self l ls)
    have hlne : ∀ τ, τ ∈ listTags → τ ≠ l := fun τ hτ he => hl (he ▸ hτ)
    have hls : ∀ x ∈ ls, x ∉ listTags := fun x hx => hcl x (List.mem_cons_of_mem l hx)
    cases hu : matchULine l with
    | some txt =>
      obtain ⟨ih1, ih2⟩ := ih true false hls
      obtain ⟨ih1t, ih2t⟩ := ih true true hls
      simp only [eq_self_iff_true, if_true, Bool.false_eq_true, if_false]
        at ih1 ih2 ih1t ih2t
      cases inUL <;> cases inOL <;>
        · simp only [listScan, hu]
          simp [List.count_cons_self]
          omega
    | none =>
      cases ho : matchOLine l with
      | some txt =>
        obtain ⟨ih1, ih2⟩ := ih false true hls
        obtain ⟨ih1t, ih2t⟩ := ih true true hls
        simp only [eq_self_iff_true, if_true, Bool.false_eq_true, if_false]
          at ih1 ih2 ih1t ih2t
        cases inUL <;> cases inOL <;>
          · simp only [listScan, hu, ho]
            simp [List.count_cons_self]
            omega
      | none =>
        obtain ⟨ih1, ih2⟩ := ih false false hls
        simp only [Bool.false_eq_true, if_false] at ih1 ih2
        have hc1 := List.count_cons_of_ne (hlne ulCloseStr (by decide))
          (listScan false false ls)
        have hc2 := List.count_cons_of_ne (hlne ulOpenStr (by decide))
          (listScan false false ls)
        have hc3 := List.count_cons_of_ne (hlne olCloseStr (by decide))
          (listScan false false ls)
        have hc4 := List.count_cons_of_ne (hlne olOpenStr (by decide))
          (listScan false false ls)
        cases inUL <;> cases inOL <;>
          · simp only [listScan, hu, ho]
            simp [List.count_cons_self, hc1, hc2, hc3, hc4]
            omega

/-- Any count bound holds for prefixes of the empty list. -/
theorem prefix_le_nil (a b : Str) (n : Nat) :
    ∀ p, p <+: ([] : List Str) → List.count a p ≤ List.count b p + n := by
  intro p hp
  rw [List.prefix_nil.mp hp]
  simp

/-- Prefixes of a cons are empty or a cons of a prefix. -/
theorem prefix_cons_cases {p : List Str} {x : Str} {l : List Str}
    (h : p <+: x :: l) : p = [] ∨ ∃ q, p = x :: q ∧ q <+: l := by
  cases p with
  | nil => exact Or.inl rfl
  | cons y ys =>
    obtain ⟨heq, hys⟩ := List.cons_prefix_cons.mp h
    exact Or.inr ⟨ys, by rw [heq], hys⟩

/-- Pushing one emitted line through a prefix count bound. -/
theorem prefix_cons_le (a b x : Str) (n m : Nat) (rec : List Str)
    (hrec : ∀ q, q <+: rec → List.count a q ≤ List.count b q + m)
    (hx : List.count a [x] + m ≤ List.count b [x] + n) :
    ∀ p, p <+: (x :: rec) → List.count a p ≤ List.count b p + n := by
  intro p hp
  rcases prefix_cons_cases hp with rfl | ⟨q, rfl, hq⟩
  · simp
  · have h1 : List.count a (x :: q) = List.count a q + List.count a [x] := by
      rw [List.count_cons, List.count_singleton]
    have h2 : List.count b (x :: q) = List.count b q + List.count b [x] := by
      rw [List.count_cons, List.count_singleton]
    have h3 := hrec q hq
    omega

/-- In every prefix of the emitted line sequence of `listScan`, closing
tags never outnumber opening tags by more than the pending open list of
the respective type, provided no input line is itself a wrapper tag
line. -/
theorem listScan_le (lines : List Str) :
    ∀ (inUL inOL : Bool), (∀ l ∈ lines, l ∉ listTags) →
      (∀ p, p <+: listScan inUL inOL lines →
        List.count ulCloseStr p ≤ List.count ulOpenStr p +
          (if inUL then 1 else 0)) ∧
      (∀ p, p <+: listScan inUL inOL lines →
        List.count olCloseStr p ≤ List.count olOpenStr p +
          (if inOL then 1 else 0)) := by
  induction lines with
  | nil =>
    intro inUL inOL _
    cases inUL <;> cases inOL <;> constructor
    · exact prefix_le_nil _ _ _
    · exact prefix_le_nil _ _ _
    · exact prefix_cons_le _ _ _ 0 0 _ (prefix_le_nil _ _ 0) (by decide)
    · exact prefix_cons_le _ _ _ 1 0 _ (prefix_le_nil _ _ 0) (by decide)
    · exact prefix_cons_le _ _ _ 1 0 _ (prefix_le_nil _ _ 0) (by decide)
    · exact prefix_cons_le _ _ _ 0 0 _ (prefix_le_nil _ _ 0) (by decide)
    · exact prefix_cons_le _ _ _ 1 0 _
        (prefix_cons_le _ _ _ 0 0 _ (prefix_le_nil _ _ 0) (by decide)) (by decide)
    · exact prefix_cons_le _ _ _ 1 1 _
        (prefix_cons_le _ _ _ 1 0 _ (prefix_le_nil _ _ 0) (by decide)) (by decide)
  | cons l ls ih =>
    intro inUL inOL hcl
    have hl : l ∉ listTags := hcl l (List.mem_cons_self l ls)
    have hlne : ∀ τ, τ ∈ listTags → τ ≠ l := fun τ hτ he => hl (he ▸ hτ)
    have hcnt : ∀ τ, τ ∈ listTags → List.count τ [l] = 0 := by
      intro τ hτ
      rw [List.count_singleton, if_neg]
      intro hbeq
      exact (hlne τ hτ) (beq_iff_eq.mp hbeq).symm
    have hls : ∀ x ∈ ls, x ∉ listTags := fun x hx => hcl x (List.mem_cons_of_mem l hx)
    cases hu : matchULine l with
    | some txt =>
      obtain ⟨ihU1, ihO1⟩ := ih true false hls
      obtain ⟨ihU2, ihO2⟩ := ih true true hls
      simp only [eq_self_iff_true, if_true, Bool.false_eq_true, if_false]
        at ihU1 ihO1 ihU2 ihO2
      cases inUL <;> cases inOL <;> constructor <;>
        simp only [listScan, hu, eq_self_iff_true, if_true, Bool.false_eq_true,
          if_false, List.nil_append, List.singleton_append]
      · exact prefix_cons_le _ _ _ 0 1 _
          (prefix_cons_le _ _ _ 1 1 _ ihU1 (by simp)) (by decide)
      · exact prefix_cons_le _ _ _ 0 0 _
          (prefix_cons_le _ _ _ 0 0 _ ihO1 (by simp)) (by decide)
      · exact prefix_cons_le _ _ _ 0 0 _ (prefix_cons_le _ _ _ 0 1 _
          (prefix_cons_le _ _ _ 1 1 _ ihU1 (by simp)) (by decide)) (by decide)
      · exact prefix_cons_le _ _ _ 1 0 _ (prefix_cons_le _ _ _ 0 0 _
          (prefix_cons_le _ _ _ 0 0 _ ihO1 (by simp)) (by decide)) (by decide)
      · exact prefix_cons_le _ _ _ 1 1 _ ihU1 (by simp)
      · exact prefix_cons_le _ _ _ 0 0 _ ihO1 (by simp)
      · exact prefix_cons_le _ _ _ 1 1 _ ihU2 (by simp)
      · exact prefix_cons_le _ _ _ 1 1 _ ihO2 (by simp)
    | none =>
      cases ho : matchOLine l with
      | some txt =>
        obtain ⟨ihU1, ihO1⟩ := ih false true hls
        obtain ⟨ihU2, ihO2⟩ := ih true true hls
        simp only [eq_self_iff_true, if_true, Bool.false_eq_true, if_false]
          at ihU1 ihO1 ihU2 ihO2
        cases inUL <;> cases inOL <;> constructor <;>
          simp only [listScan, hu, ho, eq_self_iff_true, if_true,
            Bool.false_eq_true, if_false, List.nil_append, List.singleton_append]
        · exact prefix_cons_le _ _ _ 0 0 _
            (prefix_cons_le _ _ _ 0 0 _ ihU1 (by simp)) (by decide)
        · exact prefix_cons_le _ _ _ 0 1 _
            (prefix_cons_le _ _ _ 1 1 _ ihO1 (by simp)) (by decide)
        · exact prefix_cons_le _ _ _ 0 0 _ ihU1 (by simp)
        · exact prefix_cons_le _ _ _ 1 1 _ ihO1 (by simp)
        · exact prefix_cons_le _ _ _ 1 0 _ (prefix_cons_le _ _ _ 0 0 _
            (prefix_cons_le _ _ _ 0 0 _ ihU1 (by simp)) (by decide)) (by decide)
        · exact prefix_cons_le _ _ _ 0 0 _ (prefix_cons_le _ _ _ 0 1 _
            (prefix_cons_le _ _ _ 1 1 _ ihO1 (by simp)) (by decide)) (by decide)
        · exact prefix_cons_le _ _ _ 1 1 _ ihU2 (by simp)
        · exact prefix_cons_le _ _ _ 1 1 _ ihO2 (by simp)
      | none =>
        obtain ⟨ihU1, ihO1⟩ := ih false false hls
        simp only [Bool.false_eq_true, if_false] at ihU1 ihO1
        have hxl_u : List.count ulCloseStr [l] + 0 ≤ List.count ulOpenStr [l] + 0 := by
          rw [hcnt ulCloseStr (by decide), hcnt ulOpenStr (by decide)]
        have hxl_o : List.count olCloseStr [l] + 0 ≤ List.count olOpenStr [l] + 0 := by
          rw [hcnt olCloseStr (by decide), hcnt olOpenStr (by decide)]
        cases inUL <;> cases inOL <;> constructor <;>
          simp only [listScan, hu, ho, eq_self_iff_true, if_true,
            Bool.false_eq_true, if_false, List.nil_append, List.singleton_append]
        · exact prefix_cons_le _ _ _ 0 0 _ ihU1 hxl_u
        · exact prefix_cons_le _ _ _ 0 0 _ ihO1 hxl_o
        · exact prefix_cons_le _ _ _ 0 0 _
            (prefix_cons_le _ _ _ 0 0 _ ihU1 hxl_u) (by decide)
        · exact prefix_cons_le _ _ _ 1 0 _
            (prefix_cons_le _ _ _ 0 0 _ ihO1 hxl_o) (by decide)
        · exact prefix_cons_le _ _ _ 1 0 _
            (prefix_cons_le _ _ _ 0 0 _ ihU1 hxl_u) (by decide)
        · exact prefix_cons_le _ _ _ 0 0 _
            (prefix_cons_le _ _ _ 0 0 _ ihO1 hxl_o) (by decide)
        · exact prefix_cons_le _ _ _ 1 0 _ (prefix_cons_le _ _ _ 0 0 _
            (prefix_cons_le _ _ _ 0 0 _ ihU1 hxl_u) (by decide)) (by decide)
        · exact prefix_cons_le _ _ _ 1 1 _ (prefix_cons_le _ _ _ 1 0 _
            (prefix_cons_le _ _ _ 0 0 _ ihO1 hxl_o) (by decide)) (by decide)

/-- C10 (amended): for every input string none of whose lines is itself
one of the four emitted wrapper tag lines, the emitted line sequence of
`parseLists` contains equally many `<ul` opening as `</ul>` closing lines
and equally many `<ol` opening as `</ol>` closing lines, and in every
prefix of the emitted line sequence closings never exceed openings. -/
theorem c10_balanced_when_no_literal_tags (s : Str)
    (h : ∀ l ∈ splitOnCh '\n' s, l ∉ listTags) :
    ((parseListsLines (splitOnCh '\n' s)).count ulCloseStr =
      (parseListsLines (splitOnCh '\n' s)).count ulOpenStr ∧
     (parseListsLines (splitOnCh '\n' s)).count olCloseStr =
      (parseListsLines (splitOnCh '\n' s)).count olOpenStr) ∧
    (∀ p, p <+: parseListsLines (splitOnCh '\n' s) →
      p.count ulCloseStr ≤ p.count ulOpenStr ∧
      p.count olCloseStr ≤ p.count olOpenStr) := by
  have hb := listScan_count (splitOnCh '\n' s) false false h
  have hp := listScan_le (splitOnCh '\n' s) false false h
  simp only [Bool.false_eq_true, if_false] at hb hp
  constructor
  · exact ⟨by simpa using hb.1, by simpa using hb.2⟩
  · intro p hpre
    exact ⟨by simpa using hp.1 p hpre, by simpa using hp.2 p hpre⟩

/-- C10 (amended) witness: the concrete document `- a\nx`. -/
theorem c10_balanced_when_no_literal_tags_witness :
    (((parseListsLines (splitOnCh '\n' (S "- a\nx"))).count ulCloseStr =
       (parseListsLines (splitOnCh '\n' (S "- a\nx"))).count ulOpenStr ∧
      (parseListsLines (splitOnCh '\n' (S "- a\nx"))).count olCloseStr =
       (parseListsLines (splitOnCh '\n' (S "- a\nx"))).count olOpenStr) ∧
     ∀ p, p <+: parseListsLines (splitOnCh '\n' (S "- a\nx")) →
       p.count ulCloseStr ≤ p.count ulOpenStr ∧
       p.count olCloseStr ≤ p.count olOpenStr) :=
  c10_balanced_when_no_literal_tags (S "- a\nx") (by decide)

end Col
